import Mathlib

/-!
Shallow embedding of `pydefect/analyzer/defect_energy.py` (defect-energy
envelope analysis).  Python floats are modelled by `ℚ`; the extended values
`float("-inf")` / `float("inf")` used by `pinning_level` are modelled by
the three-way type `QInf`; Python dicts are modelled by association
lists; fallible dict accesses return `Option`.
-/

namespace DefectEnergyPy

/-- Extended rationals with `-∞` and `+∞`, modelling the `float("-inf")` /
`float("inf")` sentinels of the source. -/
inductive QInf where
  | ninf
  | fin (val : ℚ)
  | inf
  deriving Repr, DecidableEq

/-- Strict comparison on `QInf` (IEEE comparison of the modelled floats). -/
def QInf.blt : QInf → QInf → Bool
  | .ninf, .ninf => false
  | .ninf, _ => true
  | _, .ninf => false
  | .fin a, .fin b => a < b
  | .fin _, .inf => true
  | .inf, _ => false

instance : LT QInf := ⟨fun a b => QInf.blt a b = true⟩

instance (a b : QInf) : Decidable (a < b) :=
  inferInstanceAs (Decidable (QInf.blt a b = true))

theorem QInf.lt_iff (a b : QInf) : a < b ↔ QInf.blt a b = true := Iff.rfl

/-- Python `round` on one argument: round half to even (banker's rounding),
as used in `int(round(dy / dx))` of `CrossPoints.charges`. -/
def pythonRound (q : ℚ) : ℤ :=
  if q < (⌊q⌋ : ℚ) + 1/2 then ⌊q⌋
  else if (⌊q⌋ : ℚ) + 1/2 < q then ⌊q⌋ + 1
  else if ⌊q⌋ % 2 = 0 then ⌊q⌋ else ⌊q⌋ + 1

/-- `np.round(x, 8)`: rounding to 8 decimal places (half to even), applied to
every intersection vertex in `ChargeEnergies.__post_init__`. -/
def round8 (q : ℚ) : ℚ := (pythonRound (q * 100000000) : ℚ) / 100000000

/-- Association-list lookup modelling Python `d[k]`; `none` models `KeyError`. -/
def dlookup {α : Type} (l : List (String × α)) (k : String) : Option α :=
  match l with
  | [] => none
  | (k', v) :: t => if k' = k then some v else dlookup t k

/-- Python-dict insertion `d[k] = v`: an existing key keeps its position and
is updated, a new key is appended at the end. -/
def dictInsert {κ ν : Type} [DecidableEq κ] :
    List (κ × ν) → κ → ν → List (κ × ν)
  | [], k, v => [(k, v)]
  | (k', v') :: t, k, v =>
      if k' = k then (k, v) :: t else (k', v') :: dictInsert t k v

/-- `itertools.combinations(l, 2)` in source order: all pairs
`(l[i], l[j])` with `i < j`. -/
def combinations2 {α : Type} : List α → List (α × α)
  | [] => []
  | x :: xs => (xs.map fun y => (x, y)) ++ combinations2 xs

/-- class `DefectEnergy`: one charge state's raw formation energy, its named
correction terms and an optional shallow flag. -/
structure DefectEnergy where
  formation_energy : ℚ
  energy_corrections : List (String × ℚ)
  is_shallow : Option Bool := none
  deriving Repr, DecidableEq

/-- `DefectEnergy.total_correction`: sum of the correction values. -/
def DefectEnergy.total_correction (d : DefectEnergy) : ℚ :=
  (d.energy_corrections.map Prod.snd).sum

/-- `DefectEnergy.energy(with_correction)`. -/
def DefectEnergy.energy (d : DefectEnergy) (with_correction : Bool) : ℚ :=
  if with_correction then d.formation_energy + d.total_correction
  else d.formation_energy

/-- class `DefectEnergies`: parallel per-charge data of one named defect. -/
structure DefectEnergies where
  atom_io : List (String × ℤ)
  charges : List ℤ
  defect_energies : List DefectEnergy
  deriving Repr, DecidableEq

/-- class `SingleChargeEnergies`: the (charge, corrected energy) lines of one
defect. -/
structure SingleChargeEnergies where
  charge_energies : List (ℤ × ℚ)
  deriving Repr, DecidableEq

/-- `SingleChargeEnergies.transition_levels`: for every `i < j` pair of lines,
the Fermi level `-(e1 - e2) / (c1 - c2)`, keyed by the charge pair. -/
def SingleChargeEnergies.transition_levels (s : SingleChargeEnergies) :
    List ((ℤ × ℤ) × ℚ) :=
  (combinations2 s.charge_energies).map fun p =>
    ((p.1.1, p.2.1), -(p.1.2 - p.2.2) / ((p.1.1 : ℚ) - (p.2.1 : ℚ)))

/-- The loop body of `SingleChargeEnergies.pinning_level`: state is
`((lower_pinning, lower_charge), (upper_pinning, upper_charge))`. -/
def pinningStep (st : (QInf × Option ℤ) × (QInf × Option ℤ)) (p : ℤ × ℚ) :
    (QInf × Option ℤ) × (QInf × Option ℤ) :=
  let (charge, energy) := p
  if charge = 0 then st
  else
    let pinning : ℚ := - energy / charge
    if charge > 0 ∧ st.1.1 < QInf.fin pinning then
      ((QInf.fin pinning, some charge), st.2)
    else if QInf.fin pinning < st.2.1 then
      (st.1, (QInf.fin pinning, some charge))
    else st

/-- `SingleChargeEnergies.pinning_level(e_min, e_max)`.  Note two source
peculiarities kept faithfully: a positive-charge line that does not improve
the lower pinning falls through to the `elif` branch updating the upper
state, and the returned upper component re-uses `(lower_pinning,
lower_charge)` instead of the upper values. -/
def SingleChargeEnergies.pinning_level (s : SingleChargeEnergies)
    (e_min e_max : QInf) :
    Option (QInf × Option ℤ) × Option (QInf × Option ℤ) :=
  let st := s.charge_energies.foldl pinningStep
    ((QInf.ninf, none), (QInf.inf, none))
  let lower : Option (QInf × Option ℤ) :=
    if st.1.2 = none ∨ st.1.1 < e_min then none else some (st.1.1, st.1.2)
  let upper : Option (QInf × Option ℤ) :=
    if st.2.2 = none ∨ e_max < st.2.1 then none else some (st.1.1, st.1.2)
  (lower, upper)

/-- class `CrossPoints`: the envelope vertices of one defect, split into
interior crossings and domain-boundary points; each point is
`(Fermi level, energy)`. -/
structure CrossPoints where
  inner_cross_points : List (ℚ × ℚ)
  boundary_points : List (ℚ × ℚ)
  deriving Repr, DecidableEq

/-- Stable insertion into a list sorted by first component (a later-arriving
element goes after earlier elements with an equal key), modelling Python's
stable `sorted(..., key=lambda v: v[0])`. -/
def insertByFst (x : ℚ × ℚ) : List (ℚ × ℚ) → List (ℚ × ℚ)
  | [] => [x]
  | y :: t => if y.1 ≤ x.1 then y :: insertByFst x t else x :: y :: t

/-- Stable sort by first component. -/
def sortByFst (l : List (ℚ × ℚ)) : List (ℚ × ℚ) :=
  l.foldl (fun acc x => insertByFst x acc) []

/-- `CrossPoints.all_sorted_points`: boundary and interior points merged,
sorted by Fermi level ascending. -/
def CrossPoints.all_sorted_points (c : CrossPoints) : List (ℚ × ℚ) :=
  sortByFst (c.boundary_points ++ c.inner_cross_points)

/-- Consecutive pairs of a list (`zip(l[:-1], l[1:])`). -/
def consecutivePairs {α : Type} : List α → List (α × α)
  | [] => []
  | [_] => []
  | x :: y :: t => (x, y) :: consecutivePairs (y :: t)

/-- `CrossPoints.charges`: for every consecutive pair of sorted points, the
slope `dy / dx` rounded to an integer (`int(round(dy / dx))`); there is no
integrality check, the rounded value is used as the segment's charge. -/
def CrossPoints.charges (c : CrossPoints) : List ℤ :=
  (consecutivePairs c.all_sorted_points).map fun pq =>
    pythonRound ((pq.2.2 - pq.1.2) / (pq.2.1 - pq.1.1))

/-- `CrossPoints.annotated_charge_positions`: each segment's charge mapped to
the segment midpoint, with Python-dict overwrite semantics. -/
def CrossPoints.annotated_charge_positions (c : CrossPoints) :
    List (ℤ × (ℚ × ℚ)) :=
  ((consecutivePairs c.all_sorted_points).zip c.charges).foldl
    (fun acc x =>
      dictInsert acc x.2 ((x.1.1.1 + x.1.2.1) / 2, (x.1.1.2 + x.1.2.2) / 2))
    []

/-- The value of one `(charge, energy)` line at a Fermi level:
`energy + charge * ef`. -/
def lineValue (ef : ℚ) (p : ℤ × ℚ) : ℚ := p.2 + p.1 * ef

/-- The loop body of `SingleChargeEnergies.energy_at_ef`: keep the smaller
value, strictly (a tie keeps the earlier line). -/
def energyAtEfStep (ef : ℚ) (st : QInf × Option ℤ) (p : ℤ × ℚ) :
    QInf × Option ℤ :=
  if QInf.fin (lineValue ef p) < st.1 then
    (QInf.fin (lineValue ef p), some p.1)
  else st

/-- `SingleChargeEnergies.energy_at_ef(ef)`: starts from
`(float("inf"), None)` and scans the lines in order. -/
def SingleChargeEnergies.energy_at_ef (s : SingleChargeEnergies) (ef : ℚ) :
    QInf × Option ℤ :=
  s.charge_energies.foldl (energyAtEfStep ef) (QInf.inf, none)

/-- class `ChargeEnergies`: the per-defect line sets plus the shared
Fermi-level domain.  Its `__post_init__` product `cross_point_dicts` is the
derived function `crossPointDicts` below. -/
structure ChargeEnergies where
  charge_energies_dict : List (String × SingleChargeEnergies)
  e_min : ℚ
  e_max : ℚ
  deriving Repr, DecidableEq

/-- `reservoir_e = sum(-diff * rel_chem_pot[elem] ...)`; `none` models the
`KeyError` raised when an element is missing from the chemical potentials. -/
def reservoirEnergy (rel_chem_pot : List (String × ℚ))
    (atoms : List (String × ℤ)) : Option ℚ :=
  match atoms with
  | [] => some 0
  | (elem, diff) :: t =>
      match dlookup rel_chem_pot elem, reservoirEnergy rel_chem_pot t with
      | some p, some rest => some (-(diff : ℚ) * p + rest)
      | _, _ => none

/-- The inner loop of `DefectEnergySummary.charge_energies` for one defect:
walks `zip(v.charges, v.defect_energies)`, skips lines flagged shallow when
`allow_shallow` is false, and appends `(charge, energy + reservoir_e)`. -/
def buildX (allow_shallow with_correction : Bool)
    (rel_chem_pot : List (String × ℚ)) (v : DefectEnergies) :
    Option (List (ℤ × ℚ)) :=
  (v.charges.zip v.defect_energies).foldlM
    (fun acc ce =>
      if allow_shallow = false ∧ ce.2.is_shallow = some true then some acc
      else
        match reservoirEnergy rel_chem_pot v.atom_io with
        | some r => some (acc ++ [(ce.1, ce.2.energy with_correction + r)])
        | none => none)
    []

/-- Modelled from the spec: `prettify_names` lives in
`pydefect/util/prepare_names.py`, which is not part of the sources at hand;
the spec treats name prettification as a pure presentation pass-through
layered on the numeric core, so it is modelled as the identity on the
name-keyed mapping. -/
def prettify_names (d : List (String × SingleChargeEnergies))
    (_style : Option String) : List (String × SingleChargeEnergies) :=
  d

/-- class `DefectEnergySummary` (the fields `charge_energies` reads). -/
structure DefectEnergySummary where
  title : String
  defect_energies : List (String × DefectEnergies)
  rel_chem_pots : List (String × List (String × ℚ))
  cbm : ℚ
  supercell_vbm : ℚ
  supercell_cbm : ℚ
  e_min : ℚ := 0
  e_max : Option ℚ := none
  deriving Repr, DecidableEq

/-- `DefectEnergySummary.charge_energies(chem_pot_label, allow_shallow,
with_correction, name_style)`: per-name merge of the charge lines, skipping a
name whose filtered list is empty, then wrapping into `ChargeEnergies`.
`none` models the `KeyError` paths (unknown label, missing element). -/
def DefectEnergySummary.charge_energies (s : DefectEnergySummary)
    (chem_pot_label : String) (allow_shallow with_correction : Bool)
    (name_style : Option String) : Option ChargeEnergies := do
  let e_max := match s.e_max with | none => s.cbm | some m => m
  let rel_chem_pot ← dlookup s.rel_chem_pots chem_pot_label
  let result ← s.defect_energies.foldlM
    (fun acc kv => do
      let x ← buildX allow_shallow with_correction rel_chem_pot kv.2
      if x ≠ [] then pure (acc ++ [(kv.1, SingleChargeEnergies.mk x)])
      else pure acc)
    []
  pure (ChargeEnergies.mk (prettify_names result name_style) s.e_min e_max)

/-- Spec-side companion of `buildX` (the per-defect merge described by the
spec): keep exactly the positional `(charge, energy)` pairs not flagged
shallow (when shallow states are disallowed), with the corrected energy plus
the reservoir term. -/
def specFilteredLines (allow_shallow with_correction : Bool) (r : ℚ)
    (v : DefectEnergies) : List (ℤ × ℚ) :=
  ((v.charges.zip v.defect_energies).filter
      (fun ce => ¬ (allow_shallow = false ∧ ce.2.is_shallow = some true))).map
    (fun ce => (ce.1, ce.2.energy with_correction + r))

/-- Spec-side companion of the per-name merge of
`DefectEnergySummary.charge_energies`: one entry per name whose filtered
line list is non-empty, names with an empty filtered list omitted. -/
def specMergedDict (allow_shallow with_correction : Bool)
    (rel : List (String × ℚ)) (l : List (String × DefectEnergies)) :
    List (String × SingleChargeEnergies) :=
  l.filterMap fun kv =>
    (reservoirEnergy rel kv.2.atom_io).bind fun r =>
      if specFilteredLines allow_shallow with_correction r kv.2 = [] then
        none
      else
        some (kv.1,
          SingleChargeEnergies.mk
            (specFilteredLines allow_shallow with_correction r kv.2))

/-- Replace an unknown (`None`) shallow flag by an explicit `False` flag. -/
def fixShallow (e : DefectEnergy) : DefectEnergy :=
  if e.is_shallow = none then
    DefectEnergy.mk e.formation_energy e.energy_corrections (some false)
  else e

/-- Apply `fixShallow` to every line of every defect of a summary. -/
def fixShallowSummary (s : DefectEnergySummary) : DefectEnergySummary :=
  DefectEnergySummary.mk s.title
    (s.defect_energies.map fun kv =>
      (kv.1, DefectEnergies.mk kv.2.atom_io kv.2.charges
        (kv.2.defect_energies.map fixShallow)))
    s.rel_chem_pots s.cbm s.supercell_vbm s.supercell_cbm s.e_min s.e_max

/-- A half-plane `a*x + b*y + c ≤ 0`, the row format
`[-charge, 1, -corr_energy]` handed to `HalfspaceIntersection`. -/
abbrev HalfSpace := ℚ × ℚ × ℚ

/-- Whether a point satisfies every half-plane constraint. -/
def satisfiesAll (hs : List HalfSpace) (p : ℚ × ℚ) : Bool :=
  hs.all fun h => h.1 * p.1 + h.2.1 * p.2 + h.2.2 ≤ 0

/-- Modelled behaviour of `scipy.spatial.HalfspaceIntersection(...).intersections`
on a non-degenerate bounded input: the vertices of the convex region
`{p | ∀ h, h.a * x + h.b * y + h.c ≤ 0}`, i.e. every intersection point of
two constraint boundary lines that satisfies all constraints, each vertex
listed once (in the pair order `i < j` of the constraint list). -/
def hsIntersectionVertices (hs : List HalfSpace) : List (ℚ × ℚ) :=
  let cands := (combinations2 hs).filterMap fun hh =>
    let (a1, b1, c1) := hh.1
    let (a2, b2, c2) := hh.2
    let det := a1 * b2 - a2 * b1
    if det = 0 then none
    else
      let p := ((b1 * c2 - b2 * c1) / det, (a2 * c1 - a1 * c2) / det)
      if satisfiesAll hs p then some p else none
  cands.foldl (fun acc p => if p ∈ acc then acc else acc ++ [p]) []

/-- The body of `ChargeEnergies.__post_init__` for one defect once the
half-space list is fixed: run the intersection, round every vertex to 8
decimals, and partition into interior crossings (`e_min + 0.001 < x <
e_max - 0.001`) and boundary points (`y > large_minus_number + 1`). -/
def crossPointsOf (e_min e_max : ℚ) (half_spaces : List HalfSpace) :
    CrossPoints :=
  let pts := (hsIntersectionVertices half_spaces).map fun p =>
    (round8 p.1, round8 p.2)
  let inner := pts.filter fun p =>
    e_min + 1/1000 < p.1 ∧ p.1 < e_max - 1/1000
  let boundary := pts.filter fun p =>
    ¬ (e_min + 1/1000 < p.1 ∧ p.1 < e_max - 1/1000) ∧ p.2 > -10000 + 1
  CrossPoints.mk inner boundary

/-- `ChargeEnergies.__post_init__`: builds `cross_point_dicts`.  Kept
faithfully from the source: `half_spaces` is initialised once *before* the
loop over defect names, so each defect's intersection also contains every
half-plane appended for the defects iterated before it. -/
def ChargeEnergies.crossPointDicts (ce : ChargeEnergies) :
    List (String × CrossPoints) :=
  (ce.charge_energies_dict.foldl
    (fun (st : List HalfSpace × List (String × CrossPoints)) nsce =>
      let hs := st.1
        ++ nsce.2.charge_energies.map (fun p => (-(p.1 : ℚ), 1, -p.2))
        ++ [(-1, 0, ce.e_min), (1, 0, -ce.e_max), (0, -1, -10000)]
      (hs, st.2 ++ [(nsce.1, crossPointsOf ce.e_min ce.e_max hs)]))
    ([], [])).2

/-! ## Theorems -/

/-- C7: for the `CrossPoints` built from inner crossings `[[2,30],[3,40]]`
and boundary points `[[1,10],[4,40]]`, the sorted point sequence is
`[[1,10],[2,30],[3,40],[4,40]]`, the per-segment charges are `[20,10,0]`,
and the charge-label midpoints are `{20:[1.5,20], 10:[2.5,35], 0:[3.5,40]}`. -/
theorem cross_points_concrete :
    (CrossPoints.mk [(2, 30), (3, 40)] [(1, 10), (4, 40)]).all_sorted_points
      = [(1, 10), (2, 30), (3, 40), (4, 40)] ∧
    (CrossPoints.mk [(2, 30), (3, 40)] [(1, 10), (4, 40)]).charges
      = [20, 10, 0] ∧
    (CrossPoints.mk [(2, 30), (3, 40)] [(1, 10), (4, 40)]).annotated_charge_positions
      = [(20, (3/2, 20)), (10, (5/2, 35)), (0, (7/2, 40))] := by
  refine ⟨?_, ?_, ?_⟩ <;>
    norm_num [CrossPoints.all_sorted_points, CrossPoints.charges,
      CrossPoints.annotated_charge_positions, sortByFst, insertByFst,
      consecutivePairs, pythonRound, dictInsert]

/-- C8: on the defect with charges `{0,1,2}`, energies `{4,2,-4}` and
corrections `{2,1,0}` (corrected energies `6,3,-4`) over the unbounded
domain, `pinning_level` returns lower pinning `(2, 2)` but `None` — not
`(inf, None)` — for the upper component when no negative-charge line
exists. -/
theorem pinning_level_unbounded_concrete :
    (SingleChargeEnergies.mk
        [(0, (DefectEnergy.mk 4 [("corr", 2)] none).energy true),
         (1, (DefectEnergy.mk 2 [("corr", 1)] none).energy true),
         (2, (DefectEnergy.mk (-4) [("corr", 0)] none).energy true)]
      ).pinning_level QInf.ninf QInf.inf
      = (some (QInf.fin 2, some 2), none) := by
  norm_num [SingleChargeEnergies.pinning_level, pinningStep, QInf.lt_iff,
    QInf.blt, DefectEnergy.energy, DefectEnergy.total_correction]
  simp

/-- C2: on the lines `{(charge 1, energy -1), (charge -1, energy 2)}` with
unbounded domain, the upper component returned by `pinning_level` is
`(1, 1)` — a copy of the lower-branch values — although the unique
negative-charge line gives `-(2)/(-1) = 2` with charge `-1`; the claimed
symmetric formula is violated by the source. -/
theorem pinning_level_upper_copies_lower :
    (SingleChargeEnergies.mk [(1, -1), (-1, 2)]).pinning_level
        QInf.ninf QInf.inf
      = (some (QInf.fin 1, some 1), some (QInf.fin 1, some 1)) ∧
    ¬ ((SingleChargeEnergies.mk [(1, -1), (-1, 2)]).pinning_level
        QInf.ninf QInf.inf).2 = some (QInf.fin 2, some (-1)) := by
  refine ⟨?_, ?_⟩
  · norm_num [SingleChargeEnergies.pinning_level, pinningStep, QInf.lt_iff,
      QInf.blt]
    simp
  · norm_num [SingleChargeEnergies.pinning_level, pinningStep, QInf.lt_iff,
      QInf.blt]

/-- C1: the `CrossPoints` computed for defect `"B"` (a single neutral line at
energy 5, domain `[0, 10]`) change when an unrelated defect `"A"` (a neutral
line at energy 1) is iterated before it, because `half_spaces` is initialised
once before the loop over names and so accumulates across defects; the
per-defect computation is not isolated. -/
theorem crossPointDicts_not_isolated :
    ChargeEnergies.crossPointDicts
        (ChargeEnergies.mk [("B", ⟨[(0, 5)]⟩)] 0 10)
      = [("B", CrossPoints.mk [] [(0, 5), (10, 5)])] ∧
    ChargeEnergies.crossPointDicts
        (ChargeEnergies.mk [("A", ⟨[(0, 1)]⟩), ("B", ⟨[(0, 5)]⟩)] 0 10)
      = [("A", CrossPoints.mk [] [(0, 1), (10, 1)]),
         ("B", CrossPoints.mk [] [(0, 1), (10, 1)])] ∧
    ¬ (CrossPoints.mk [] [(0, 5), (10, 5)])
        = (CrossPoints.mk [] [(0, 1), (10, 1)] : CrossPoints) := by
  refine ⟨?_, ?_, by decide⟩ <;>
    norm_num [ChargeEnergies.crossPointDicts, crossPointsOf,
      hsIntersectionVertices, combinations2, satisfiesAll, round8,
      pythonRound, List.filterMap, List.filter, List.foldl, List.all]

/-- C3 counterexample: the slope `(1 - 0)/(2 - 0) = 1/2` of the segment from
`(0,0)` to `(2,1)` is not an integer, yet `CrossPoints.charges` does not
fail: it silently returns the rounded charge `[0]`. -/
theorem charges_no_error_on_nonint_slope :
    (¬ ∃ z : ℤ, ((1 : ℚ) - 0) / ((2 : ℚ) - 0) = (z : ℚ)) ∧
    CrossPoints.charges (CrossPoints.mk [] [(0, 0), (2, 1)]) = [0] := by
  constructor
  · rintro ⟨z, hz⟩
    norm_num at hz
    have h2 : (2 : ℚ) * ((1 : ℚ) / 2) = 2 * (z : ℚ) := by rw [hz]
    norm_num at h2
    have h3 : (1 : ℤ) = 2 * z := by exact_mod_cast h2
    omega
  · norm_num [CrossPoints.charges, CrossPoints.all_sorted_points, sortByFst,
      insertByFst, consecutivePairs, pythonRound]

/-- C4 counterexample: building the charge-energy lines of a defect with the
duplicate charges `[0,0,1]` succeeds (both duplicate lines are retained), and
building from mismatched-length sequences (`charges = [0,1]`, one energy)
also succeeds, silently truncated by the positional zip; no
`MalformedInputError` exists on this path. -/
theorem buildX_accepts_malformed :
    buildX false true []
        (DefectEnergies.mk [] [0, 0, 1]
          [DefectEnergy.mk 1 [] none, DefectEnergy.mk 2 [] none,
           DefectEnergy.mk 3 [] none])
      = some [(0, 1), (0, 2), (1, 3)] ∧
    ¬ ([0, 0, 1] : List ℤ).Nodup ∧
    buildX false true []
        (DefectEnergies.mk [] [0, 1] [DefectEnergy.mk 1 [] none])
      = some [(0, 1)] := by
  refine ⟨?_, by decide, ?_⟩ <;>
    (norm_num [buildX, reservoirEnergy, DefectEnergy.energy,
      DefectEnergy.total_correction, List.foldlM]; simp)

/-! ### Helper lemmas -/

theorem QInf.fin_lt_fin {a b : ℚ} : QInf.fin a < QInf.fin b ↔ a < b := by
  simp [QInf.lt_iff, QInf.blt]

theorem QInf.fin_lt_inf (a : ℚ) : QInf.fin a < QInf.inf := by
  simp [QInf.lt_iff, QInf.blt]

theorem energy_fold_aux (ef : ℚ) :
    ∀ (t : List (ℤ × ℚ)) (m₀ : ℚ) (c₀ : ℤ),
      ∃ m c,
        t.foldl (energyAtEfStep ef) (QInf.fin m₀, some c₀)
          = (QInf.fin m, some c) ∧
        m ≤ m₀ ∧ (∀ p ∈ t, m ≤ lineValue ef p) ∧
        ((m = m₀ ∧ c = c₀) ∨
         (m < m₀ ∧ ∃ p₀, t.find? (fun p => lineValue ef p == m) = some p₀ ∧
            p₀.1 = c ∧ lineValue ef p₀ = m))
  | [], m₀, c₀ => ⟨m₀, c₀, rfl, le_refl _, by simp, Or.inl ⟨rfl, rfl⟩⟩
  | p :: t, m₀, c₀ => by
    by_cases hv : lineValue ef p < m₀
    · have hstep : energyAtEfStep ef (QInf.fin m₀, some c₀) p
          = (QInf.fin (lineValue ef p), some p.1) := by
        simp [energyAtEfStep, QInf.fin_lt_fin, hv]
      obtain ⟨m, c, hfold, hle, hall, hcase⟩ :=
        energy_fold_aux ef t (lineValue ef p) p.1
      refine ⟨m, c, ?_, by linarith, ?_, ?_⟩
      · rw [List.foldl_cons, hstep]; exact hfold
      · intro q hq
        rcases List.mem_cons.mp hq with rfl | hq
        · exact hle
        · exact hall q hq
      · rcases hcase with ⟨hm, hc⟩ | ⟨hm, p₀, hfind, hp1, hpv⟩
        · refine Or.inr ⟨by linarith, p, ?_, hc.symm, hm.symm⟩
          have : (lineValue ef p == m) = true := by
            simp [hm]
          simp [List.find?_cons, this]
        · refine Or.inr ⟨by linarith, p₀, ?_, hp1, hpv⟩
          have : (lineValue ef p == m) = false := by
            simp only [beq_eq_false_iff_ne, ne_eq]
            intro hcontr
            rw [hcontr] at hm
            exact absurd hm (lt_irrefl _)
          rw [List.find?_cons, this]
          exact hfind
    · have hstep : energyAtEfStep ef (QInf.fin m₀, some c₀) p
          = (QInf.fin m₀, some c₀) := by
        simp [energyAtEfStep, QInf.fin_lt_fin, hv]
      obtain ⟨m, c, hfold, hle, hall, hcase⟩ := energy_fold_aux ef t m₀ c₀
      push_neg at hv
      refine ⟨m, c, ?_, hle, ?_, ?_⟩
      · rw [List.foldl_cons, hstep]; exact hfold
      · intro q hq
        rcases List.mem_cons.mp hq with rfl | hq
        · linarith
        · exact hall q hq
      · rcases hcase with ⟨hm, hc⟩ | ⟨hm, p₀, hfind, hp1, hpv⟩
        · exact Or.inl ⟨hm, hc⟩
        · refine Or.inr ⟨hm, p₀, ?_, hp1, hpv⟩
          have : (lineValue ef p == m) = false := by
            simp only [beq_eq_false_iff_ne, ne_eq]
            intro hcontr
            have : m₀ ≤ m := hcontr ▸ hv
            linarith
          rw [List.find?_cons, this]
          exact hfind

theorem combinations2_mem {α : Type} :
    ∀ {l : List α} {pq : α × α}, pq ∈ combinations2 l → pq.1 ∈ l ∧ pq.2 ∈ l
  | [], pq, h => by simp [combinations2] at h
  | x :: xs, pq, h => by
    rw [combinations2, List.mem_append] at h
    rcases h with h | h
    · obtain ⟨y, hy, rfl⟩ := List.mem_map.mp h
      exact ⟨List.mem_cons_self x xs, List.mem_cons_of_mem x hy⟩
    · obtain ⟨h1, h2⟩ := combinations2_mem h
      exact ⟨List.mem_cons_of_mem x h1, List.mem_cons_of_mem x h2⟩

theorem combinations2_fst_ne :
    ∀ {l : List (ℤ × ℚ)} {pq : (ℤ × ℚ) × (ℤ × ℚ)},
      (l.map Prod.fst).Nodup → pq ∈ combinations2 l → pq.1.1 ≠ pq.2.1
  | [], pq, _, h => by simp [combinations2] at h
  | x :: xs, pq, hnd, h => by
    rw [List.map_cons, List.nodup_cons] at hnd
    rw [combinations2, List.mem_append] at h
    rcases h with h | h
    · obtain ⟨y, hy, rfl⟩ := List.mem_map.mp h
      intro heq
      exact hnd.1 (heq ▸ List.mem_map_of_mem Prod.fst hy)
    · exact combinations2_fst_ne hnd.2 h

theorem pythonRound_dist_le (q : ℚ) : |(pythonRound q : ℚ) - q| ≤ 1/2 := by
  have hfl : (⌊q⌋ : ℚ) ≤ q := Int.floor_le q
  have hfu : q < (⌊q⌋ : ℚ) + 1 := Int.lt_floor_add_one q
  rw [pythonRound]
  split
  · next h1 => rw [abs_le]; constructor <;> linarith
  · next h1 =>
    push_neg at h1
    split
    · next h2 => rw [abs_le]; push_cast; constructor <;> linarith
    · next h2 =>
      push_neg at h2
      have heq : q = (⌊q⌋ : ℚ) + 1/2 := le_antisymm h2 h1
      split
      · rw [abs_le]; constructor <;> linarith
      · rw [abs_le]; push_cast; constructor <;> linarith

theorem zip_with_map_self {α β : Type} (f : α → β) :
    ∀ (l : List α), ∀ x ∈ l.zip (l.map f), x.2 = f x.1
  | [], x, h => by simp at h
  | a :: t, x, h => by
    rw [List.map_cons, List.zip_cons_cons, List.mem_cons] at h
    rcases h with rfl | h
    · rfl
    · exact zip_with_map_self f t x h

theorem buildX_eq_specFilteredLines (a wc : Bool) (rel : List (String × ℚ))
    (v : DefectEnergies) (r : ℚ)
    (h : reservoirEnergy rel v.atom_io = some r) :
    buildX a wc rel v = some (specFilteredLines a wc r v) := by
  rw [buildX, specFilteredLines]
  have main : ∀ (l : List (ℤ × DefectEnergy)) (acc : List (ℤ × ℚ)),
      l.foldlM
        (fun acc ce =>
          if a = false ∧ ce.2.is_shallow = some true then some acc
          else
            match reservoirEnergy rel v.atom_io with
            | some r' => some (acc ++ [(ce.1, ce.2.energy wc + r')])
            | none => none)
        acc
      = some (acc ++
          (l.filter
            (fun ce => ¬ (a = false ∧ ce.2.is_shallow = some true))).map
            (fun ce => (ce.1, ce.2.energy wc + r))) := by
    intro l
    induction l with
    | nil => intro acc; simp
    | cons ce t ih =>
      intro acc
      rw [List.foldlM_cons]
      by_cases hc : a = false ∧ ce.2.is_shallow = some true
      · have hstep :
            (if a = false ∧ ce.2.is_shallow = some true then some acc
             else
               match reservoirEnergy rel v.atom_io with
               | some r' => some (acc ++ [(ce.1, ce.2.energy wc + r')])
               | none => none) = some acc := by
          rw [if_pos hc]
        rw [hstep]
        show t.foldlM _ acc = _
        rw [ih acc, List.filter_cons]
        have hd : (decide ¬ (a = false ∧ ce.2.is_shallow = some true))
            = false := by simp [hc]
        rw [hd]
        simp
      · have hstep :
            (if a = false ∧ ce.2.is_shallow = some true then some acc
             else
               match reservoirEnergy rel v.atom_io with
               | some r' => some (acc ++ [(ce.1, ce.2.energy wc + r')])
               | none => none)
            = some (acc ++ [(ce.1, ce.2.energy wc + r)]) := by
          rw [if_neg hc, h]
        rw [hstep]
        show t.foldlM _ (acc ++ [(ce.1, ce.2.energy wc + r)]) = _
        rw [ih _, List.filter_cons]
        have hd : (decide ¬ (a = false ∧ ce.2.is_shallow = some true))
            = true := by
          simp only [decide_eq_true_eq]
          exact hc
        rw [hd]
        simp
  exact main (v.charges.zip v.defect_energies) []

theorem charge_energies_foldlM (a wc : Bool) (rel : List (String × ℚ)) :
    ∀ (l : List (String × DefectEnergies)),
      (∀ kv ∈ l, (reservoirEnergy rel kv.2.atom_io).isSome) →
      ∀ (acc : List (String × SingleChargeEnergies)),
        (l.foldlM
          (fun acc kv => do
            let x ← buildX a wc rel kv.2
            if x ≠ [] then
              pure (acc ++ [(kv.1, SingleChargeEnergies.mk x)])
            else pure acc)
          acc)
        = some (acc ++ specMergedDict a wc rel l)
  | [], _, acc => by simp [specMergedDict]
  | kv :: t, hl, acc => by
    have hh := hl kv (List.mem_cons_self kv t)
    obtain ⟨r, hr⟩ := Option.isSome_iff_exists.mp hh
    have hb : buildX a wc rel kv.2 = some (specFilteredLines a wc r kv.2) :=
      buildX_eq_specFilteredLines a wc rel kv.2 r hr
    have ht : ∀ kv' ∈ t, (reservoirEnergy rel kv'.2.atom_io).isSome :=
      fun kv' h' => hl kv' (List.mem_cons_of_mem kv h')
    rw [List.foldlM_cons]
    rw [specMergedDict, List.filterMap_cons]
    by_cases he : specFilteredLines a wc r kv.2 = []
    · have hstep :
          (do
            let x ← buildX a wc rel kv.2
            if x ≠ [] then
              pure (acc ++ [(kv.1, SingleChargeEnergies.mk x)])
            else pure acc : Option _)
          = some acc := by
        rw [hb]
        simp [he]
      have hentry :
          ((reservoirEnergy rel kv.2.atom_io).bind fun r =>
            if specFilteredLines a wc r kv.2 = [] then none
            else
              some (kv.1,
                SingleChargeEnergies.mk (specFilteredLines a wc r kv.2)))
          = (none : Option (String × SingleChargeEnergies)) := by
        rw [hr, Option.some_bind, if_pos he]
      rw [hstep]
      show t.foldlM _ acc = _
      rw [charge_energies_foldlM a wc rel t ht acc]
      simp only [hentry]
      rfl
    · have hstep :
          (do
            let x ← buildX a wc rel kv.2
            if x ≠ [] then
              pure (acc ++ [(kv.1, SingleChargeEnergies.mk x)])
            else pure acc : Option _)
          = some (acc ++
              [(kv.1, SingleChargeEnergies.mk
                  (specFilteredLines a wc r kv.2))]) := by
        rw [hb]
        simp [he]
      have hentry :
          ((reservoirEnergy rel kv.2.atom_io).bind fun r =>
            if specFilteredLines a wc r kv.2 = [] then none
            else
              some (kv.1,
                SingleChargeEnergies.mk (specFilteredLines a wc r kv.2)))
          = some (kv.1,
              SingleChargeEnergies.mk (specFilteredLines a wc r kv.2)) := by
        rw [hr, Option.some_bind, if_neg he]
      rw [hstep]
      show t.foldlM _ _ = _
      rw [charge_energies_foldlM a wc rel t ht _]
      simp only [hentry]
      rw [List.append_assoc]
      rfl

theorem charge_energies_eq (s : DefectEnergySummary) (label : String)
    (a wc : Bool) (style : Option String) (rel : List (String × ℚ))
    (h1 : dlookup s.rel_chem_pots label = some rel)
    (h2 : ∀ kv ∈ s.defect_energies,
      (reservoirEnergy rel kv.2.atom_io).isSome) :
    s.charge_energies label a wc style
      = some (ChargeEnergies.mk (specMergedDict a wc rel s.defect_energies)
          s.e_min (match s.e_max with | none => s.cbm | some m => m)) := by
  have hfold := charge_energies_foldlM a wc rel s.defect_energies h2 []
  simp only [Option.bind_eq_bind] at hfold
  simp only [DefectEnergySummary.charge_energies, h1, Option.bind_eq_bind,
    Option.some_bind, hfold, List.nil_append]
  rfl

theorem dlookup_eq_none_of_not_mem {α : Type} :
    ∀ (d : List (String × α)) (k : String),
      k ∉ d.map Prod.fst → dlookup d k = none
  | [], _, _ => rfl
  | (k', v') :: t, k, h => by
    rw [List.map_cons, List.mem_cons] at h
    push_neg at h
    rw [dlookup, if_neg (fun heq => h.1 heq.symm)]
    exact dlookup_eq_none_of_not_mem t k h.2

theorem mergedEntry_key (a wc : Bool) (rel : List (String × ℚ))
    (kv : String × DefectEnergies) (b : String × SingleChargeEnergies)
    (h : ((reservoirEnergy rel kv.2.atom_io).bind fun r =>
        if specFilteredLines a wc r kv.2 = [] then none
        else
          some (kv.1,
            SingleChargeEnergies.mk (specFilteredLines a wc r kv.2)))
      = some b) :
    b.1 = kv.1 := by
  cases hre : reservoirEnergy rel kv.2.atom_io with
  | none =>
    rw [hre, Option.none_bind] at h
    exact Option.noConfusion h
  | some r =>
    rw [hre, Option.some_bind] at h
    by_cases he : specFilteredLines a wc r kv.2 = []
    · rw [if_pos he] at h
      exact Option.noConfusion h
    · rw [if_neg he] at h
      cases h
      rfl

theorem specMergedDict_cons_none (a wc : Bool) (rel : List (String × ℚ))
    (kv : String × DefectEnergies) (t : List (String × DefectEnergies))
    (h : ((reservoirEnergy rel kv.2.atom_io).bind fun r =>
        if specFilteredLines a wc r kv.2 = [] then none
        else
          some (kv.1,
            SingleChargeEnergies.mk (specFilteredLines a wc r kv.2)))
      = none) :
    specMergedDict a wc rel (kv :: t) = specMergedDict a wc rel t := by
  simp only [specMergedDict, List.filterMap_cons, h]

theorem specMergedDict_cons_some (a wc : Bool) (rel : List (String × ℚ))
    (kv : String × DefectEnergies) (t : List (String × DefectEnergies))
    (b : String × SingleChargeEnergies)
    (h : ((reservoirEnergy rel kv.2.atom_io).bind fun r =>
        if specFilteredLines a wc r kv.2 = [] then none
        else
          some (kv.1,
            SingleChargeEnergies.mk (specFilteredLines a wc r kv.2)))
      = some b) :
    specMergedDict a wc rel (kv :: t) = b :: specMergedDict a wc rel t := by
  simp only [specMergedDict, List.filterMap_cons, h]

theorem specMergedDict_keys_sublist (a wc : Bool)
    (rel : List (String × ℚ)) :
    ∀ (l : List (String × DefectEnergies)),
      ((specMergedDict a wc rel l).map Prod.fst).Sublist (l.map Prod.fst)
  | [] => by simp [specMergedDict]
  | kv :: t => by
    have ih := specMergedDict_keys_sublist a wc rel t
    cases hE : ((reservoirEnergy rel kv.2.atom_io).bind fun r =>
        if specFilteredLines a wc r kv.2 = [] then none
        else
          some (kv.1,
            SingleChargeEnergies.mk (specFilteredLines a wc r kv.2))) with
    | none =>
      rw [specMergedDict_cons_none a wc rel kv t hE, List.map_cons]
      exact ih.cons kv.1
    | some b =>
      rw [specMergedDict_cons_some a wc rel kv t b hE, List.map_cons,
        List.map_cons, mergedEntry_key a wc rel kv b hE]
      exact ih.cons₂ kv.1

theorem dlookup_specMergedDict (a wc : Bool) (rel : List (String × ℚ)) :
    ∀ (l : List (String × DefectEnergies)) (k : String)
      (v : DefectEnergies),
      (l.map Prod.fst).Nodup → (k, v) ∈ l →
      dlookup (specMergedDict a wc rel l) k
        = ((reservoirEnergy rel v.atom_io).bind fun r =>
            if specFilteredLines a wc r v = [] then none
            else
              some (SingleChargeEnergies.mk (specFilteredLines a wc r v)))
  | [], k, v, _, hm => by simp at hm
  | (k', v') :: t, k, v, hnd, hm => by
    rw [List.map_cons, List.nodup_cons] at hnd
    by_cases hk : k' = k
    · subst hk
      have hv : v' = v := by
        rcases List.mem_cons.mp hm with heq | hmem
        · cases heq; rfl
        · exact absurd (List.mem_map_of_mem Prod.fst hmem) hnd.1
      subst hv
      have hnotin : k' ∉ (specMergedDict a wc rel t).map Prod.fst :=
        fun hmem => hnd.1 ((specMergedDict_keys_sublist a wc rel t).mem hmem)
      cases hre : reservoirEnergy rel v'.atom_io with
      | none =>
        have hE : ((reservoirEnergy rel v'.atom_io).bind fun r =>
            if specFilteredLines a wc r v' = [] then none
            else
              some (k',
                SingleChargeEnergies.mk (specFilteredLines a wc r v')))
            = none := by
          rw [hre, Option.none_bind]
        rw [specMergedDict_cons_none a wc rel (k', v') t hE,
          Option.none_bind]
        exact dlookup_eq_none_of_not_mem _ _ hnotin
      | some r =>
        by_cases he : specFilteredLines a wc r v' = []
        · have hE : ((reservoirEnergy rel v'.atom_io).bind fun r =>
              if specFilteredLines a wc r v' = [] then none
              else
                some (k',
                  SingleChargeEnergies.mk (specFilteredLines a wc r v')))
              = none := by
            rw [hre, Option.some_bind, if_pos he]
          rw [specMergedDict_cons_none a wc rel (k', v') t hE,
            Option.some_bind, if_pos he]
          exact dlookup_eq_none_of_not_mem _ _ hnotin
        · have hE : ((reservoirEnergy rel v'.atom_io).bind fun r =>
              if specFilteredLines a wc r v' = [] then none
              else
                some (k',
                  SingleChargeEnergies.mk (specFilteredLines a wc r v')))
              = some (k',
                  SingleChargeEnergies.mk (specFilteredLines a wc r v')) := by
            rw [hre, Option.some_bind, if_neg he]
          rw [specMergedDict_cons_some a wc rel (k', v') t _ hE, dlookup,
            if_pos rfl, Option.some_bind, if_neg he]
    · have hmem : (k, v) ∈ t := by
        rcases List.mem_cons.mp hm with heq | hmem
        · cases heq; exact absurd rfl hk
        · exact hmem
      have ih := dlookup_specMergedDict a wc rel t k v hnd.2 hmem
      cases hE : ((reservoirEnergy rel v'.atom_io).bind fun r =>
          if specFilteredLines a wc r v' = [] then none
          else
            some (k',
              SingleChargeEnergies.mk (specFilteredLines a wc r v'))) with
      | none =>
        rw [specMergedDict_cons_none a wc rel (k', v') t hE]
        exact ih
      | some b =>
        rw [specMergedDict_cons_some a wc rel (k', v') t b hE, dlookup]
        have hb1 : b.1 = k' := mergedEntry_key a wc rel (k', v') b hE
        rw [if_neg (hb1 ▸ hk)]
        exact ih

/-! ### Remaining claim theorems -/

/-- C5: for every non-empty charge-energy list and Fermi level, `energy_at_ef`
returns the minimum over all lines of `energy + charge * ef` together with
the charge of the first line (in input order) attaining it; for the defect
with charges `{0,1,2}`, energies `{4,2,-4}`, corrections `{2,1,0}`:
`energy_at_ef(0) = (-4, 2)` and `energy_at_ef(10) = (6, 0)`. -/
theorem energy_at_ef_min_first (l : List (ℤ × ℚ)) (ef : ℚ) (h : l ≠ []) :
    (∃ m c,
      (SingleChargeEnergies.mk l).energy_at_ef ef = (QInf.fin m, some c) ∧
      (∀ p ∈ l, m ≤ lineValue ef p) ∧
      (∃ p₀, l.find? (fun p => lineValue ef p == m) = some p₀ ∧ p₀.1 = c ∧
        lineValue ef p₀ = m)) ∧
    (SingleChargeEnergies.mk
        [(0, (DefectEnergy.mk 4 [("corr", 2)] none).energy true),
         (1, (DefectEnergy.mk 2 [("corr", 1)] none).energy true),
         (2, (DefectEnergy.mk (-4) [("corr", 0)] none).energy true)]
      ).energy_at_ef 0 = (QInf.fin (-4), some 2) ∧
    (SingleChargeEnergies.mk
        [(0, (DefectEnergy.mk 4 [("corr", 2)] none).energy true),
         (1, (DefectEnergy.mk 2 [("corr", 1)] none).energy true),
         (2, (DefectEnergy.mk (-4) [("corr", 0)] none).energy true)]
      ).energy_at_ef 10 = (QInf.fin 6, some 0) := by
  refine ⟨?_, ?_, ?_⟩
  · match l, h with
    | p :: t, _ =>
      have hstep : energyAtEfStep ef (QInf.inf, none) p
          = (QInf.fin (lineValue ef p), some p.1) := by
        simp [energyAtEfStep, QInf.fin_lt_inf]
      obtain ⟨m, c, hfold, hle, hall, hcase⟩ :=
        energy_fold_aux ef t (lineValue ef p) p.1
      refine ⟨m, c, ?_, ?_, ?_⟩
      · rw [SingleChargeEnergies.energy_at_ef, List.foldl_cons, hstep]
        exact hfold
      · intro q hq
        rcases List.mem_cons.mp hq with rfl | hq
        · exact hle
        · exact hall q hq
      · rcases hcase with ⟨hm, hc⟩ | ⟨hm, p₀, hfind, hp1, hpv⟩
        · refine ⟨p, ?_, hc.symm, hm.symm⟩
          have : (lineValue ef p == m) = true := by simp [hm]
          simp [List.find?_cons, this]
        · refine ⟨p₀, ?_, hp1, hpv⟩
          have : (lineValue ef p == m) = false := by
            simp only [beq_eq_false_iff_ne, ne_eq]
            intro hcontr
            rw [hcontr] at hm
            exact absurd hm (lt_irrefl _)
          rw [List.find?_cons, this]
          exact hfind
  · norm_num [SingleChargeEnergies.energy_at_ef, energyAtEfStep, lineValue,
      QInf.lt_iff, QInf.blt, DefectEnergy.energy,
      DefectEnergy.total_correction]
  · norm_num [SingleChargeEnergies.energy_at_ef, energyAtEfStep, lineValue,
      QInf.lt_iff, QInf.blt, DefectEnergy.energy,
      DefectEnergy.total_correction]

/-- Witness for C5 at the concrete two-line input `[(2,3),(0,1)]`, `ef = 1`. -/
theorem energy_at_ef_min_first_witness :
    ∃ m c,
      (SingleChargeEnergies.mk [((2 : ℤ), (3 : ℚ)), (0, 1)]).energy_at_ef 1
        = (QInf.fin m, some c) ∧
      (∀ p ∈ [((2 : ℤ), (3 : ℚ)), (0, 1)], m ≤ lineValue 1 p) ∧
      (∃ p₀, [((2 : ℤ), (3 : ℚ)), (0, 1)].find?
          (fun p => lineValue 1 p == m) = some p₀ ∧ p₀.1 = c ∧
        lineValue 1 p₀ = m) :=
  (energy_at_ef_min_first [(2, 3), (0, 1)] 1 (by simp)).1

/-- C6: for distinct charges, `transition_levels` contains, for every ordered
pair of lines, the unique Fermi level at which the two lines are equal
(`q1*ef + e1 = q2*ef + e2`), keyed by the charge pair; on the defect with
charges `{0,1,2}`, energies `{4,2,-4}`, corrections `{2,1,0}` it equals
`{(0,1): 3, (0,2): 5, (1,2): 7}`. -/
theorem transition_levels_solve_crossings (l : List (ℤ × ℚ))
    (h : (l.map Prod.fst).Nodup) :
    (∀ pq ∈ combinations2 l,
      ((pq.1.1, pq.2.1),
          -(pq.1.2 - pq.2.2) / ((pq.1.1 : ℚ) - (pq.2.1 : ℚ)))
        ∈ (SingleChargeEnergies.mk l).transition_levels ∧
      pq.1 ∈ l ∧ pq.2 ∈ l ∧ pq.1.1 ≠ pq.2.1 ∧
      ∀ t : ℚ, (pq.1.1 : ℚ) * t + pq.1.2 = (pq.2.1 : ℚ) * t + pq.2.2 ↔
        t = -(pq.1.2 - pq.2.2) / ((pq.1.1 : ℚ) - (pq.2.1 : ℚ))) ∧
    (SingleChargeEnergies.mk
        [(0, (DefectEnergy.mk 4 [("corr", 2)] none).energy true),
         (1, (DefectEnergy.mk 2 [("corr", 1)] none).energy true),
         (2, (DefectEnergy.mk (-4) [("corr", 0)] none).energy true)]
      ).transition_levels
      = [((0, 1), 3), ((0, 2), 5), ((1, 2), 7)] := by
  constructor
  · intro pq hpq
    obtain ⟨h1, h2⟩ := combinations2_mem hpq
    have hne : pq.1.1 ≠ pq.2.1 := combinations2_fst_ne h hpq
    have hcast : ((pq.1.1 : ℚ) - (pq.2.1 : ℚ)) ≠ 0 := by
      rw [sub_ne_zero]
      exact_mod_cast hne
    refine ⟨?_, h1, h2, hne, ?_⟩
    · rw [SingleChargeEnergies.transition_levels]
      exact List.mem_map_of_mem _ hpq
    · intro t
      constructor
      · intro heq
        rw [eq_div_iff hcast]
        linear_combination heq
      · intro heq
        rw [eq_div_iff hcast] at heq
        linear_combination heq
  · norm_num [SingleChargeEnergies.transition_levels, combinations2,
      DefectEnergy.energy, DefectEnergy.total_correction]

/-- Witness for C6 at the concrete defect with charges `{0,1,2}`. -/
theorem transition_levels_solve_crossings_witness :
    (SingleChargeEnergies.mk
        [(0, (DefectEnergy.mk 4 [("corr", 2)] none).energy true),
         (1, (DefectEnergy.mk 2 [("corr", 1)] none).energy true),
         (2, (DefectEnergy.mk (-4) [("corr", 0)] none).energy true)]
      ).transition_levels
      = [((0, 1), 3), ((0, 2), 5), ((1, 2), 7)] :=
  (transition_levels_solve_crossings
    [(0, (DefectEnergy.mk 4 [("corr", 2)] none).energy true),
     (1, (DefectEnergy.mk 2 [("corr", 1)] none).energy true),
     (2, (DefectEnergy.mk (-4) [("corr", 0)] none).energy true)]
    (by decide)).2

/-- C3 (amended): `CrossPoints.charges` never fails; every per-segment charge
is the slope of its segment rounded to a nearest integer (ties to even), so
it always lies within `1/2` of the exact slope — a non-integer slope is
silently rounded, no `EnvelopeDegenerateError` is raised. -/
theorem charges_rounds_slope_to_nearest (c : CrossPoints) :
    ∀ x ∈ (consecutivePairs c.all_sorted_points).zip c.charges,
      |(x.2 : ℚ) - (x.1.2.2 - x.1.1.2) / (x.1.2.1 - x.1.1.1)| ≤ 1/2 := by
  intro x hx
  have h2 : x.2 = pythonRound ((x.1.2.2 - x.1.1.2) / (x.1.2.1 - x.1.1.1)) :=
    zip_with_map_self _ (consecutivePairs c.all_sorted_points) x hx
  rw [h2]
  exact pythonRound_dist_le _

/-- Witness for the amended C3 on the segment `(0,0) → (2,1)` of slope `1/2`. -/
theorem charges_rounds_slope_to_nearest_witness :
    |((0 : ℤ) : ℚ) - ((1 : ℚ) - (0 : ℚ)) / ((2 : ℚ) - (0 : ℚ))| ≤ 1/2 :=
  charges_rounds_slope_to_nearest (CrossPoints.mk [] [(0, 0), (2, 1)])
    (((0, 0), (2, 1)), 0)
    (by norm_num [CrossPoints.all_sorted_points, CrossPoints.charges,
      sortByFst, insertByFst, consecutivePairs, pythonRound])

/-- C4 (amended): line-set construction performs no validation and (when the
chemical-potential lookups succeed) always succeeds: the output is capped by
positional pairing at the shorter of the two sequences, and with no shallow
filtering its charges are exactly the zipped charges, duplicates included. -/
theorem buildX_total_truncating (v : DefectEnergies)
    (rel : List (String × ℚ)) (allow wc : Bool) (r : ℚ)
    (h : reservoirEnergy rel v.atom_io = some r) :
    ∃ x, buildX allow wc rel v = some x ∧
      x.length ≤ v.charges.length ∧
      x.length ≤ v.defect_energies.length ∧
      (allow = true →
        x.map Prod.fst = (v.charges.zip v.defect_energies).map Prod.fst) := by
  refine ⟨specFilteredLines allow wc r v,
    buildX_eq_specFilteredLines allow wc rel v r h, ?_, ?_, ?_⟩
  · calc (specFilteredLines allow wc r v).length
        ≤ (v.charges.zip v.defect_energies).length := by
          rw [specFilteredLines, List.length_map]
          exact List.length_filter_le _ _
      _ ≤ v.charges.length := by
          rw [List.length_zip]; exact min_le_left _ _
  · calc (specFilteredLines allow wc r v).length
        ≤ (v.charges.zip v.defect_energies).length := by
          rw [specFilteredLines, List.length_map]
          exact List.length_filter_le _ _
      _ ≤ v.defect_energies.length := by
          rw [List.length_zip]; exact min_le_right _ _
  · intro ha
    subst ha
    rw [specFilteredLines]
    have hfilter :
        (v.charges.zip v.defect_energies).filter
            (fun ce => ¬ (true = false ∧ ce.2.is_shallow = some true))
          = v.charges.zip v.defect_energies := by
      apply List.filter_eq_self.mpr
      intro ce _
      simp
    rw [hfilter, List.map_map]
    exact List.map_congr_left fun ce _ => rfl

/-- Witness for the amended C4 on a duplicate-charge two-line defect. -/
theorem buildX_total_truncating_witness :
    ∃ x, buildX true true []
        (DefectEnergies.mk [] [0, 0]
          [DefectEnergy.mk 1 [] none, DefectEnergy.mk 2 [] (some true)])
      = some x :=
  Exists.imp (fun x hx => hx.1)
    (buildX_total_truncating
      (DefectEnergies.mk [] [0, 0]
        [DefectEnergy.mk 1 [] none, DefectEnergy.mk 2 [] (some true)])
      [] true true 0 (by rfl))

/-- C9: when shallow states are disallowed and the chemical-potential
lookups succeed, the per-name merge succeeds; each name's filtered line list
drops exactly the `some true`-flagged charges, a name whose filtered list is
empty is omitted from the mapping (no error), and every name with a
non-empty filtered list yields exactly one entry. -/
theorem charge_energies_merge_spec (s : DefectEnergySummary) (label : String)
    (wc : Bool) (style : Option String) (rel : List (String × ℚ))
    (h1 : dlookup s.rel_chem_pots label = some rel)
    (h2 : ∀ kv ∈ s.defect_energies,
      (reservoirEnergy rel kv.2.atom_io).isSome)
    (h3 : (s.defect_energies.map Prod.fst).Nodup) :
    ∃ ce, s.charge_energies label false wc style = some ce ∧
      (ce.charge_energies_dict.map Prod.fst).Nodup ∧
      ∀ k v r, (k, v) ∈ s.defect_energies →
        reservoirEnergy rel v.atom_io = some r →
        ((specFilteredLines false wc r v = [] →
            dlookup ce.charge_energies_dict k = none) ∧
         (specFilteredLines false wc r v ≠ [] →
            dlookup ce.charge_energies_dict k
              = some (SingleChargeEnergies.mk
                  (specFilteredLines false wc r v)))) := by
  refine ⟨_, charge_energies_eq s label false wc style rel h1 h2, ?_, ?_⟩
  · exact
      ((specMergedDict_keys_sublist false wc rel s.defect_energies).nodup h3)
  · intro k v r hm hr
    have hd := dlookup_specMergedDict false wc rel s.defect_energies k v h3 hm
    rw [hr, Option.some_bind] at hd
    constructor
    · intro he
      rw [hd, if_pos he]
    · intro he
      rw [hd, if_neg he]

/-- Witness for C9 on a two-defect summary where one defect is entirely
shallow-flagged and the other is not. -/
theorem charge_energies_merge_spec_witness :
    ∃ ce, (DefectEnergySummary.mk "t"
        [("gone", DefectEnergies.mk [] [0] [DefectEnergy.mk 1 [] (some true)]),
         ("kept", DefectEnergies.mk [] [0] [DefectEnergy.mk 1 [] none])]
        [("A", [])] 10 0 10 0 none).charge_energies "A" false true none
      = some ce :=
  Exists.imp (fun ce h => h.1)
    (charge_energies_merge_spec
      (DefectEnergySummary.mk "t"
        [("gone", DefectEnergies.mk [] [0] [DefectEnergy.mk 1 [] (some true)]),
         ("kept", DefectEnergies.mk [] [0] [DefectEnergy.mk 1 [] none])]
        [("A", [])] 10 0 10 0 none)
      "A" true none []
      (by simp [dlookup])
      (by intro kv hkv
          rcases List.mem_cons.mp hkv with rfl | hkv
          · rfl
          · rcases List.mem_cons.mp hkv with rfl | hkv
            · rfl
            · simp at hkv)
      (by simp))

theorem fixShallow_energy (e : DefectEnergy) (wc : Bool) :
    (fixShallow e).energy wc = e.energy wc := by
  rw [fixShallow]
  split
  · rfl
  · rfl

theorem fixShallow_shallow_iff (e : DefectEnergy) :
    ((fixShallow e).is_shallow = some true) ↔ (e.is_shallow = some true) := by
  rw [fixShallow]
  split
  · next h => simp [h]
  · next h => exact Iff.rfl

theorem specFilteredLines_fixShallow (wc : Bool) (r : ℚ)
    (v : DefectEnergies) :
    specFilteredLines false wc r
        (DefectEnergies.mk v.atom_io v.charges
          (v.defect_energies.map fixShallow))
      = specFilteredLines false wc r v := by
  rw [specFilteredLines, specFilteredLines]
  show ((v.charges.zip (v.defect_energies.map fixShallow)).filter _).map _ = _
  rw [List.zip_map_right, List.filter_map, List.map_map]
  have hfilter :
      (v.charges.zip v.defect_energies).filter
          ((fun ce => decide ¬ (false = false ∧
              ce.2.is_shallow = some true)) ∘ Prod.map id fixShallow)
        = (v.charges.zip v.defect_energies).filter
            (fun ce => decide ¬ (false = false ∧
              ce.2.is_shallow = some true)) := by
    apply List.filter_congr
    intro ce _
    simp only [Function.comp_apply, Prod.map_snd, decide_eq_decide]
    rw [fixShallow_shallow_iff]
  rw [hfilter]
  apply List.map_congr_left
  intro ce _
  simp only [Function.comp_apply, Prod.map_fst, Prod.map_snd, id_eq]
  rw [fixShallow_energy]

theorem specMergedDict_fixShallow (wc : Bool) (rel : List (String × ℚ))
    (l : List (String × DefectEnergies)) :
    specMergedDict false wc rel
        (l.map fun kv =>
          (kv.1, DefectEnergies.mk kv.2.atom_io kv.2.charges
            (kv.2.defect_energies.map fixShallow)))
      = specMergedDict false wc rel l := by
  rw [specMergedDict, specMergedDict, List.filterMap_map]
  apply List.filterMap_congr
  intro kv _
  simp only [Function.comp_apply, specFilteredLines_fixShallow]

/-- C10: with shallow states disallowed, replacing every unknown (`None`)
shallow flag by an explicit not-shallow (`some false`) flag leaves
`charge_energies` — and hence every downstream envelope, transition-level
and pinning computation derived from it — unchanged, and the per-defect
merge keeps exactly the lines whose flag is not `some true`: a
`None`-flagged line is retained at its position. -/
theorem shallow_none_retained (s : DefectEnergySummary) (label : String)
    (wc : Bool) (style : Option String) (rel : List (String × ℚ))
    (h1 : dlookup s.rel_chem_pots label = some rel)
    (h2 : ∀ kv ∈ s.defect_energies,
      (reservoirEnergy rel kv.2.atom_io).isSome) :
    (fixShallowSummary s).charge_energies label false wc style
      = s.charge_energies label false wc style ∧
    ∀ v : DefectEnergies, ∀ r : ℚ, reservoirEnergy rel v.atom_io = some r →
      buildX false wc rel v
        = some (((v.charges.zip v.defect_energies).filter
            (fun ce => ¬ ce.2.is_shallow = some true)).map
            (fun ce => (ce.1, ce.2.energy wc + r))) := by
  constructor
  · have h1' : dlookup (fixShallowSummary s).rel_chem_pots label = some rel :=
      h1
    have h2' : ∀ kv ∈ (fixShallowSummary s).defect_energies,
        (reservoirEnergy rel kv.2.atom_io).isSome := by
      intro kv hkv
      obtain ⟨kv₀, hkv₀, rfl⟩ := List.mem_map.mp hkv
      exact h2 kv₀ hkv₀
    rw [charge_energies_eq s label false wc style rel h1 h2,
      charge_energies_eq (fixShallowSummary s) label false wc style rel
        h1' h2']
    have hdefs : (fixShallowSummary s).defect_energies
        = s.defect_energies.map fun kv =>
            (kv.1, DefectEnergies.mk kv.2.atom_io kv.2.charges
              (kv.2.defect_energies.map fixShallow)) := rfl
    rw [hdefs, specMergedDict_fixShallow]
    rfl
  · intro v r hr
    rw [buildX_eq_specFilteredLines false wc rel v r hr, specFilteredLines]
    have hfilter : (v.charges.zip v.defect_energies).filter
          (fun ce => decide ¬ (false = false ∧ ce.2.is_shallow = some true))
        = (v.charges.zip v.defect_energies).filter
            (fun ce => decide ¬ ce.2.is_shallow = some true) := by
      apply List.filter_congr
      intro ce _
      simp
    rw [hfilter]

/-- Witness for C10 on a one-defect summary whose single line has an
unknown (`None`) shallow flag. -/
theorem shallow_none_retained_witness :
    (fixShallowSummary (DefectEnergySummary.mk "t"
        [("kept", DefectEnergies.mk [] [0] [DefectEnergy.mk 1 [] none])]
        [("A", [])] 10 0 10 0 none)).charge_energies "A" false true none
      = (DefectEnergySummary.mk "t"
          [("kept", DefectEnergies.mk [] [0] [DefectEnergy.mk 1 [] none])]
          [("A", [])] 10 0 10 0 none).charge_energies "A" false true none :=
  (shallow_none_retained
    (DefectEnergySummary.mk "t"
      [("kept", DefectEnergies.mk [] [0] [DefectEnergy.mk 1 [] none])]
      [("A", [])] 10 0 10 0 none)
    "A" true none []
    (by simp [dlookup])
    (by intro kv hkv
        rcases List.mem_cons.mp hkv with rfl | hkv
        · rfl
        · simp at hkv)).1

end DefectEnergyPy
